import Mathlib

/-!
Shallow embedding of `src/distributed_cache_system.py`.

Python dicts are modelled as insertion-ordered association lists
(`Dict κ α`): assignment updates an existing key in place or appends a
fresh key at the end, deletion removes the key, iteration follows list
order — exactly the guarantees of CPython dicts.  `time.time()` is
modelled by an explicit natural-number timestamp passed to each public
operation.  Operations that can raise an uncaught Python exception
(`min()` of an empty dict inside `_evict`, `KeyError` on
`access_counts[key] += 1`, `IndexError` on `sorted_keys[0]` of an empty
ring) return `none`; `some` is a normal return.  The SHA-256 digest is
an abstract parameter `h : String → Nat`: the same function is threaded
through ring construction and lookup, which is all the claims use.
-/

/-- A Python dict with keys of type `κ`: an association list in insertion
order. -/
abbrev Dict (κ α : Type) := List (κ × α)

/-- Python `d[k]` as an option: the value at the first entry with key `k`. -/
def dictGet [DecidableEq κ] : Dict κ α → κ → Option α
  | [], _ => none
  | p :: d, k => if k = p.1 then some p.2 else dictGet d k

/-- Python `k in d`. -/
def dictMem [DecidableEq κ] (d : Dict κ α) (k : κ) : Bool :=
  (dictGet d k).isSome

/-- Python `d[k] = v`: update the entry in place if the key is present,
else append at the end (CPython dict insertion-order semantics). -/
def dictSet [DecidableEq κ] : Dict κ α → κ → α → Dict κ α
  | [], k, v => [(k, v)]
  | p :: d, k, v => if k = p.1 then (k, v) :: d else p :: dictSet d k v

/-- Python `del d[k]` (as used under an `if k in d` guard): remove every
entry with key `k`, keeping order. -/
def dictDel [DecidableEq κ] : Dict κ α → κ → Dict κ α
  | [], _ => []
  | p :: d, k => if p.1 = k then dictDel d k else p :: dictDel d k

/-- Python `len(d)`. -/
def dictLen (d : Dict κ α) : Nat := d.length

/-- Python `min(d, key=d.get)` tail: fold keeping the first entry with the
smallest value. -/
def pyMinAux [LinearOrder α] (best : κ × α) : List (κ × α) → κ × α
  | [] => best
  | q :: qs => pyMinAux (if q.2 < best.2 then q else best) qs

/-- Python `min(d, key=d.get)`: first key of minimal value, `none` when the
dict is empty (Python raises `ValueError` there). -/
def pyMin [LinearOrder α] : Dict κ α → Option (κ × α)
  | [] => none
  | p :: d => some (pyMinAux p d)

/-! ## CacheNode (`class CacheNode` in the source) -/

/-- State of one cache node, mirroring `CacheNode.__init__`: the
`eviction_policy` is the Python string, `max_size` a Python int,
and the four dicts start empty.  Timestamps and TTL durations are
natural numbers standing for `time.time()` values. -/
structure CacheNode where
  node_id : String
  max_size : Int
  eviction_policy : String
  cache : Dict String String
  access_times : Dict String Nat
  access_counts : Dict String Nat
  ttl : Dict String Nat
  deriving DecidableEq, Repr

/-- `CacheNode(node_id, eviction_policy, max_size)`: the constructor runs no
validation, so it is total — a non-positive `max_size` is accepted. -/
def CacheNode.init (node_id : String) (eviction_policy : String)
    (max_size : Int) : CacheNode :=
  ⟨node_id, max_size, eviction_policy, [], [], [], []⟩

/-- `CacheNode.invalidate`: delete the key and its metadata, but only when
the key is in `cache` (otherwise even stray metadata is kept). -/
def CacheNode.invalidate (n : CacheNode) (key : String) : CacheNode :=
  if dictMem n.cache key then
    { n with cache := dictDel n.cache key,
             access_times := dictDel n.access_times key,
             access_counts := dictDel n.access_counts key,
             ttl := dictDel n.ttl key }
  else n

/-- `CacheNode._evict`.  LRU/LFU: `min` of the metadata dict — `none` models
the `ValueError` Python raises when that dict is empty.  TTL: remove every
entry whose recorded expiry is `≤ now`.  Any other policy string evicts
nothing. -/
def CacheNode.evict (n : CacheNode) (now : Nat) : Option CacheNode :=
  if n.eviction_policy = "LRU" then
    match pyMin n.access_times with
    | none => none
    | some p => some (n.invalidate p.1)
  else if n.eviction_policy = "LFU" then
    match pyMin n.access_counts with
    | none => none
    | some p => some (n.invalidate p.1)
  else if n.eviction_policy = "TTL" then
    some (((n.ttl.filter (fun p => decide (p.2 ≤ now))).map Prod.fst).foldl
      (fun m k => m.invalidate k) n)
  else some n

/-- The unconditional tail of `CacheNode.set`: store the value, then
(re)initialize the policy metadata for the key. -/
def CacheNode.setStore (n : CacheNode) (key value : String) (ttl : Option Nat)
    (now : Nat) : CacheNode :=
  let m := { n with cache := dictSet n.cache key value }
  if m.eviction_policy = "LRU" then
    { m with access_times := dictSet m.access_times key now }
  else if m.eviction_policy = "LFU" then
    { m with access_counts := dictSet m.access_counts key 1 }
  else if m.eviction_policy = "TTL" then
    match ttl with
    | some t => { m with ttl := dictSet m.ttl key (now + t) }
    | none => m
  else m

/-- `CacheNode.set`: `if len(self.cache) >= self.max_size: self._evict()`,
then store.  A failing `_evict` (Python exception) aborts before any
mutation, hence the `Option.map`. -/
def CacheNode.set (n : CacheNode) (key value : String) (ttl : Option Nat)
    (now : Nat) : Option CacheNode :=
  if (dictLen n.cache : Int) ≥ n.max_size then
    (n.evict now).map (fun m => m.setStore key value ttl now)
  else
    some (n.setStore key value ttl now)

/-- `CacheNode.get`.  Returns `some (result, state)` on normal return and
`none` on an uncaught exception (the `KeyError` of
`self.access_counts[key] += 1` when the counter is missing).  The TTL
check is Python's `time.time() > self.ttl[key]`, i.e. strictly after the
recorded expiry. -/
def CacheNode.get (n : CacheNode) (key : String) (now : Nat) :
    Option (Option String × CacheNode) :=
  match dictGet n.cache key with
  | none => some (none, n)
  | some v =>
    let expiredNow : Bool :=
      if n.eviction_policy = "TTL" then
        match dictGet n.ttl key with
        | some e => decide (e < now)
        | none => false
      else false
    if expiredNow then some (none, n.invalidate key)
    else if n.eviction_policy = "LRU" then
      some (some v, { n with access_times := dictSet n.access_times key now })
    else if n.eviction_policy = "LFU" then
      match dictGet n.access_counts key with
      | none => none
      | some c =>
        some (some v, { n with access_counts := dictSet n.access_counts key (c + 1) })
    else some (some v, n)

/-! ## Sequences of public operations on one node -/

/-- One public operation on a cache node, with its `time.time()` value. -/
inductive Op where
  | get (key : String) (now : Nat)
  | set (key value : String) (ttl : Option Nat) (now : Nat)
  | invalidate (key : String)
  deriving DecidableEq, Repr

/-- Apply one public operation; `none` models an uncaught exception. -/
def applyOp (n : CacheNode) : Op → Option CacheNode
  | Op.get k now => (n.get k now).map Prod.snd
  | Op.set k v t now => n.set k v t now
  | Op.invalidate k => some (n.invalidate k)

/-- Run a sequence of public operations from a state; `none` as soon as one
operation raises. -/
def runOps (n : CacheNode) : List Op → Option CacheNode
  | [] => some n
  | op :: ops =>
    match applyOp n op with
    | none => none
    | some n2 => runOps n2 ops

/-! ## The LRU/LFU shard invariant (claim C1) -/

/-- Invariant of an LRU node of capacity `C`: entry count bounded by `C`,
`access_times` and `cache` hold the same keys, and the other two metadata
dicts are empty. -/
def WFlru (C : Int) (n : CacheNode) : Prop :=
  n.eviction_policy = "LRU" ∧ n.max_size = C ∧
  (dictLen n.cache : Int) ≤ C ∧
  (∀ k, dictMem n.access_times k = dictMem n.cache k) ∧
  n.access_counts = [] ∧ n.ttl = []

/-- Invariant of an LFU node of capacity `C`. -/
def WFlfu (C : Int) (n : CacheNode) : Prop :=
  n.eviction_policy = "LFU" ∧ n.max_size = C ∧
  (dictLen n.cache : Int) ≤ C ∧
  (∀ k, dictMem n.access_counts k = dictMem n.cache k) ∧
  n.access_times = [] ∧ n.ttl = []



/-! ## DistributedCache and its consistent-hashing ring -/

/-- The virtual-point name `f"{node.node_id}_{i}"`. -/
def vpName (node_id : String) (i : Nat) : String :=
  node_id ++ "_" ++ toString i

/-- `DistributedCache._create_node_map`: for each node, three virtual
points; each hash is assigned into a Python dict, so a colliding hash
OVERWRITES the earlier entry.  `h` abstracts `_hash` (SHA-256 of the
string, read as an unsigned integer). -/
def createNodeMap (h : String → Nat) (nodes : List CacheNode) :
    Dict Nat CacheNode :=
  nodes.foldl
    (fun m node =>
      (List.range 3).foldl
        (fun m2 i => dictSet m2 (h (vpName node.node_id i)) node) m)
    []

/-- `DistributedCache._get_node`: linear scan over the ascending-sorted
hash keys for the first one `≥ h key`; wrap around to `sorted_keys[0]`.
`none` models the `IndexError` raised on an empty ring. -/
def get_node (h : String → Nat) (node_map : Dict Nat CacheNode)
    (key : String) : Option CacheNode :=
  let hash_key := h key
  let sorted_keys := List.insertionSort (· ≤ ·) (node_map.map Prod.fst)
  match sorted_keys.find? (fun nk => decide (hash_key ≤ nk)) with
  | some nk => dictGet node_map nk
  | none =>
    match sorted_keys with
    | [] => none
    | k0 :: _ => dictGet node_map k0

/-- `DistributedCache.__init__`: keeps the nodes and builds the ring; no
validation, so construction always succeeds, even on an empty node list. -/
structure DistributedCache where
  nodes : List CacheNode
  node_map : Dict Nat CacheNode

/-- `DistributedCache(nodes)` with digest `h`. -/
def DistributedCache.init (h : String → Nat) (nodes : List CacheNode) :
    DistributedCache :=
  ⟨nodes, createNodeMap h nodes⟩

/-! ## PubSubSystem -/

/-- The heap of shard objects: each shard reference (Python object
identity) maps to that shard state. -/
abbrev Store := Dict String CacheNode

/-- `PubSubSystem`: channel name to the list of subscribed shard
references, in subscription order, duplicates kept. -/
structure PubSubSystem where
  subscribers : Dict String (List String)

/-- `PubSubSystem.subscribe`: create the channel entry if missing, then
append the shard reference (no deduplication). -/
def PubSubSystem.subscribe (ps : PubSubSystem) (channel : String)
    (nodeRef : String) : PubSubSystem :=
  match dictGet ps.subscribers channel with
  | none => ⟨dictSet ps.subscribers channel [nodeRef]⟩
  | some l => ⟨dictSet ps.subscribers channel (l ++ [nodeRef])⟩

/-- `node.invalidate(message)` on the shard behind one reference. -/
def storeInvalidate (st : Store) (nodeRef message : String) : Store :=
  match dictGet st nodeRef with
  | none => st
  | some n => dictSet st nodeRef (n.invalidate message)

/-- `PubSubSystem.publish`: if the channel is subscribed, invalidate the
message key on every subscribed shard, in list order; otherwise no-op. -/
def PubSubSystem.publish (ps : PubSubSystem) (st : Store)
    (channel message : String) : Store :=
  match dictGet ps.subscribers channel with
  | none => st
  | some ids => ids.foldl (fun s nodeRef => storeInvalidate s nodeRef message) st

/-! ## Derived predicates and concrete scenario states -/

/-- An entry of `n` counts as expired at `now` when its recorded expiry is
at or before `now` (the `_evict` TTL test `expiry <= current_time`). -/
def ttlExpired (n : CacheNode) (now : Nat) (k : String) : Bool :=
  match dictGet n.ttl k with
  | some e => decide (e ≤ now)
  | none => false

/-- A fresh capacity-2 LRU node. -/
def lruInit : CacheNode := CacheNode.init "L" "LRU" 2

/-- The LRU eviction-order scenario of the spec:
`set(A,1)`, `set(B,2)`, `get(A)`, `set(C,3)` at increasing times. -/
def c6ops : List Op :=
  [Op.set "A" "1" none 1, Op.set "B" "2" none 2, Op.get "A" 3,
   Op.set "C" "3" none 4]

/-- State after `c6ops`: `B` was evicted. -/
def c6final : CacheNode :=
  ⟨"L", 2, "LRU", [("A", "1"), ("C", "3")], [("A", 3), ("C", 4)], [], []⟩

/-- Overwrite scenario: fill the shard, refresh `A`, then overwrite `A`
while at full capacity. -/
def c4ops : List Op :=
  [Op.set "A" "1" none 1, Op.set "B" "2" none 2, Op.get "A" 3,
   Op.set "A" "9" none 4]

/-- State just before the overwriting `set`: full shard holding `A`. -/
def c4pre : CacheNode :=
  ⟨"L", 2, "LRU", [("A", "1"), ("B", "2")], [("A", 3), ("B", 2)], [], []⟩

/-- State after the overwriting `set`: `B` has been evicted. -/
def c4final : CacheNode :=
  ⟨"L", 2, "LRU", [("A", "9")], [("A", 4)], [], []⟩

/-- A fresh capacity-1 TTL node. -/
def ttlNode0 : CacheNode := CacheNode.init "t" "TTL" 1

/-- Reachable TTL state with one unexpired entry at full capacity. -/
def ttlFull : CacheNode :=
  ⟨"t", 1, "TTL", [("A", "v")], [], [], [("A", 10)]⟩

/-- TTL state after setting a second key while nothing was expired:
capacity 1, two live entries. -/
def ttlOver : CacheNode :=
  ⟨"t", 1, "TTL", [("A", "v"), ("B", "w")], [], [], [("A", 10)]⟩

/-- Reachable TTL node holding key `K` with expiry timestamp 5
(`set("K","v",ttl=5)` at time 0). -/
def c5node : CacheNode :=
  ⟨"t", 10, "TTL", [("K", "v")], [], [], [("K", 5)]⟩

/-- A digest instantiation for the ring scenarios, injective on the three
virtual-point names of shard id `a` (as SHA-256 is on distinct strings). -/
def hEx (s : String) : Nat :=
  if s = "a_0" then 10 else if s = "a_1" then 20 else 30

/-- Two distinct shard objects constructed with the same shard id, so all
their virtual-point strings — hence their SHA-256 values — coincide. -/
def nodeA1 : CacheNode := CacheNode.init "a" "LRU" 1

/-- Second shard with shard id `a`. -/
def nodeA2 : CacheNode := CacheNode.init "a" "LRU" 2

/-- A shard holding key `K`, registered under reference `s1`. -/
def s1node : CacheNode :=
  ⟨"s1", 5, "LRU", [("K", "v")], [("K", 1)], [], []⟩

/-- A second shard holding key `K`, registered under reference `s2`. -/
def s2node : CacheNode :=
  ⟨"s2", 5, "LFU", [("K", "w")], [], [("K", 2)], []⟩

/-- Heap with the two shards above. -/
def stEx : Store := [("s1", s1node), ("s2", s2node)]

/-- Subscription table: channel `inv` with `s1` subscribed twice. -/
def psEx : PubSubSystem := ⟨[("inv", ["s1", "s2", "s1"])]⟩

/-! ## Lemma development -/

section DictLemmas

variable [DecidableEq κ]

theorem dictGet_dictSet_self (d : Dict κ α) (k : κ) (v : α) :
    dictGet (dictSet d k v) k = some v := by
  induction d with
  | nil => simp [dictSet, dictGet]
  | cons p d ih =>
    by_cases hk : k = p.1
    · simp [dictSet, hk, dictGet]
    · simp [dictSet, hk, dictGet, ih]

theorem dictGet_dictSet_ne (d : Dict κ α) (k k2 : κ) (v : α) (hne : k2 ≠ k) :
    dictGet (dictSet d k v) k2 = dictGet d k2 := by
  induction d with
  | nil => simp [dictSet, dictGet, hne]
  | cons p d ih =>
    by_cases hk : k = p.1
    · subst hk
      simp [dictSet, dictGet, hne]
    · by_cases hk2 : k2 = p.1
      · simp [dictSet, hk, dictGet, hk2]
      · simp [dictSet, hk, dictGet, hk2, ih]

theorem dictMem_dictSet (d : Dict κ α) (k k2 : κ) (v : α) :
    dictMem (dictSet d k v) k2 = (dictMem d k2 || decide (k2 = k)) := by
  by_cases hk : k2 = k
  · subst hk
    simp [dictMem, dictGet_dictSet_self]
  · simp [dictMem, dictGet_dictSet_ne d k k2 v hk, hk]

theorem dictLen_dictSet_le (d : Dict κ α) (k : κ) (v : α) :
    dictLen (dictSet d k v) ≤ dictLen d + 1 := by
  induction d with
  | nil => simp [dictSet, dictLen]
  | cons p d ih =>
    by_cases hk : k = p.1
    · simp [dictSet, hk, dictLen]
    · simp only [dictSet, hk, if_false, dictLen, List.length_cons]
      exact Nat.succ_le_succ ih

theorem dictLen_dictSet_mem (d : Dict κ α) (k : κ) (v : α)
    (hmem : dictMem d k = true) :
    dictLen (dictSet d k v) = dictLen d := by
  induction d with
  | nil => simp [dictMem, dictGet] at hmem
  | cons p d ih =>
    by_cases hk : k = p.1
    · simp [dictSet, hk, dictLen]
    · simp only [dictMem, dictGet, hk, if_false] at hmem
      simp only [dictSet, hk, if_false, dictLen, List.length_cons]
      exact congrArg Nat.succ (ih hmem)

theorem dictGet_dictDel_self (d : Dict κ α) (k : κ) :
    dictGet (dictDel d k) k = none := by
  induction d with
  | nil => simp [dictDel, dictGet]
  | cons p d ih =>
    by_cases hk : p.1 = k
    · simp [dictDel, hk, ih]
    · have : ¬ k = p.1 := fun h => hk h.symm
      simp [dictDel, hk, dictGet, this, ih]

theorem dictGet_dictDel_ne (d : Dict κ α) (k k2 : κ) (hne : k2 ≠ k) :
    dictGet (dictDel d k) k2 = dictGet d k2 := by
  induction d with
  | nil => simp [dictDel]
  | cons p d ih =>
    by_cases hk : p.1 = k
    · simp [dictDel, hk, dictGet, hne, ih]
    · by_cases hk2 : k2 = p.1
      · simp [dictDel, hk, dictGet, hk2]
      · simp [dictDel, hk, dictGet, hk2, ih]

theorem dictMem_dictDel (d : Dict κ α) (k k2 : κ) :
    dictMem (dictDel d k) k2 = (dictMem d k2 && !(decide (k2 = k))) := by
  by_cases hk : k2 = k
  · subst hk
    simp [dictMem, dictGet_dictDel_self]
  · simp [dictMem, dictGet_dictDel_ne d k k2 hk, hk]

theorem dictLen_dictDel_le (d : Dict κ α) (k : κ) :
    dictLen (dictDel d k) ≤ dictLen d := by
  induction d with
  | nil => simp [dictDel]
  | cons p d ih =>
    by_cases hk : p.1 = k
    · simp only [dictDel, hk, if_true, dictLen, List.length_cons]
      exact Nat.le_succ_of_le ih
    · simp only [dictDel, hk, if_false, dictLen, List.length_cons]
      exact Nat.succ_le_succ ih

theorem dictLen_dictDel_lt (d : Dict κ α) (k : κ)
    (hmem : dictMem d k = true) :
    dictLen (dictDel d k) < dictLen d := by
  induction d with
  | nil => simp [dictMem, dictGet] at hmem
  | cons p d ih =>
    by_cases hk : p.1 = k
    · simp only [dictDel, hk, if_true, dictLen, List.length_cons]
      exact Nat.lt_succ_of_le (dictLen_dictDel_le d k)
    · have : ¬ k = p.1 := fun h => hk h.symm
      simp only [dictMem, dictGet, this, if_false] at hmem
      simp only [dictDel, hk, if_false, dictLen, List.length_cons]
      exact Nat.succ_lt_succ (ih hmem)

theorem dictMem_cons_head (p : κ × α) (d : Dict κ α) :
    dictMem (p :: d) p.1 = true := by
  simp [dictMem, dictGet]

theorem dictGet_isSome_of_mem_keys (d : Dict κ α) (k : κ)
    (hk : k ∈ d.map Prod.fst) : (dictGet d k).isSome = true := by
  induction d with
  | nil => simp at hk
  | cons p d ih =>
    by_cases h : k = p.1
    · simp [dictGet, h]
    · simp only [List.map_cons, List.mem_cons] at hk
      rcases hk with hk | hk
      · exact absurd hk h
      · simp [dictGet, h, ih hk]

end DictLemmas

section PyMinLemmas

variable [LinearOrder α]

theorem pyMinAux_spec (l : List (κ × α)) (best : κ × α) :
    (pyMinAux best l = best ∨ pyMinAux best l ∈ l) ∧
      (pyMinAux best l).2 ≤ best.2 ∧ ∀ q ∈ l, (pyMinAux best l).2 ≤ q.2 := by
  induction l generalizing best with
  | nil => simp [pyMinAux]
  | cons q qs ih =>
    by_cases hlt : q.2 < best.2
    · have h := ih q
      refine ⟨?_, ?_, ?_⟩
      · rcases h.1 with h1 | h1
        · right; rw [pyMinAux, if_pos hlt, h1]; exact List.mem_cons_self q qs
        · right; rw [pyMinAux, if_pos hlt]; exact List.mem_cons_of_mem q h1
      · rw [pyMinAux, if_pos hlt]
        exact le_of_lt (lt_of_le_of_lt h.2.1 hlt)
      · intro r hr
        rw [pyMinAux, if_pos hlt]
        rcases List.mem_cons.mp hr with h1 | h1
        · rw [h1]; exact h.2.1
        · exact h.2.2 r h1
    · have h := ih best
      refine ⟨?_, ?_, ?_⟩
      · rcases h.1 with h1 | h1
        · left; rw [pyMinAux, if_neg hlt]; exact h1
        · right; rw [pyMinAux, if_neg hlt]; exact List.mem_cons_of_mem q h1
      · rw [pyMinAux, if_neg hlt]; exact h.2.1
      · intro r hr
        rw [pyMinAux, if_neg hlt]
        rcases List.mem_cons.mp hr with h1 | h1
        · rw [h1]
          exact h.2.1.trans (le_of_not_lt hlt)
        · exact h.2.2 r h1

/-- `pyMin` returns an entry of the dict whose value is minimal. -/
theorem pyMin_spec (d : Dict κ α) (p : κ × α) (h : pyMin d = some p) :
    p ∈ d ∧ ∀ q ∈ d, p.2 ≤ q.2 := by
  cases d with
  | nil => simp [pyMin] at h
  | cons q qs =>
    simp only [pyMin, Option.some_inj] at h
    subst h
    have hs := pyMinAux_spec qs q
    refine ⟨?_, ?_⟩
    · rcases hs.1 with h1 | h1
      · rw [h1]; exact List.mem_cons_self q qs
      · exact List.mem_cons_of_mem q h1
    · intro r hr
      rcases List.mem_cons.mp hr with h1 | h1
      · rw [h1]; exact hs.2.1
      · exact hs.2.2 r h1

end PyMinLemmas

/-! ## Basic facts about the node operations -/

theorem dictMem_of_pair_mem [DecidableEq κ] (d : Dict κ α) (p : κ × α)
    (hp : p ∈ d) : dictMem d p.1 = true := by
  induction d with
  | nil => simp at hp
  | cons q d ih =>
    rcases List.mem_cons.mp hp with h | h
    · subst h; exact dictMem_cons_head p d
    · by_cases hk : p.1 = q.1
      · simp [dictMem, dictGet, hk]
      · simp only [dictMem, dictGet, hk, if_false]
        exact ih h

theorem invalidate_eviction_policy (n : CacheNode) (k : String) :
    (n.invalidate k).eviction_policy = n.eviction_policy := by
  unfold CacheNode.invalidate; split <;> rfl

theorem invalidate_max_size (n : CacheNode) (k : String) :
    (n.invalidate k).max_size = n.max_size := by
  unfold CacheNode.invalidate; split <;> rfl

theorem invalidate_mem_cache (n : CacheNode) (k0 k : String) :
    dictMem (n.invalidate k0).cache k
      = (dictMem n.cache k && !(decide (k = k0))) := by
  unfold CacheNode.invalidate
  by_cases h : dictMem n.cache k0 = true
  · simp only [h, if_true]
    exact dictMem_dictDel n.cache k0 k
  · simp only [h, if_false]
    by_cases hk : k = k0
    · subst hk
      simp [Bool.eq_false_iff.mpr h]
    · simp [hk]

theorem invalidate_ttl_empty (n : CacheNode) (k : String) (h : n.ttl = []) :
    (n.invalidate k).ttl = [] := by
  unfold CacheNode.invalidate
  split
  · simp [h, dictDel]
  · exact h

theorem invalidate_counts_empty (n : CacheNode) (k : String)
    (h : n.access_counts = []) : (n.invalidate k).access_counts = [] := by
  unfold CacheNode.invalidate
  split
  · simp [h, dictDel]
  · exact h

theorem invalidate_times_empty (n : CacheNode) (k : String)
    (h : n.access_times = []) : (n.invalidate k).access_times = [] := by
  unfold CacheNode.invalidate
  split
  · simp [h, dictDel]
  · exact h

theorem invalidate_cache_len_le (n : CacheNode) (k : String) :
    dictLen (n.invalidate k).cache ≤ dictLen n.cache := by
  unfold CacheNode.invalidate
  split
  · exact dictLen_dictDel_le n.cache k
  · exact le_refl _

theorem invalidate_cache_len_lt (n : CacheNode) (k : String)
    (hmem : dictMem n.cache k = true) :
    dictLen (n.invalidate k).cache < dictLen n.cache := by
  unfold CacheNode.invalidate
  rw [if_pos hmem]
  exact dictLen_dictDel_lt n.cache k hmem

theorem setStore_lru (n : CacheNode) (hp : n.eviction_policy = "LRU")
    (k v : String) (t : Option Nat) (now : Nat) :
    n.setStore k v t now
      = { n with cache := dictSet n.cache k v,
                 access_times := dictSet n.access_times k now } := by
  unfold CacheNode.setStore
  simp [hp]

theorem setStore_lfu (n : CacheNode) (hp : n.eviction_policy = "LFU")
    (k v : String) (t : Option Nat) (now : Nat) :
    n.setStore k v t now
      = { n with cache := dictSet n.cache k v,
                 access_counts := dictSet n.access_counts k 1 } := by
  unfold CacheNode.setStore
  simp [hp]

theorem setStore_cache (n : CacheNode) (k v : String) (t : Option Nat)
    (now : Nat) : (n.setStore k v t now).cache = dictSet n.cache k v := by
  unfold CacheNode.setStore
  by_cases h1 : n.eviction_policy = "LRU" <;>
    by_cases h2 : n.eviction_policy = "LFU" <;>
      by_cases h3 : n.eviction_policy = "TTL" <;>
        cases t <;> simp [h1, h2, h3]

theorem setStore_eviction_policy (n : CacheNode) (k v : String)
    (t : Option Nat) (now : Nat) :
    (n.setStore k v t now).eviction_policy = n.eviction_policy := by
  unfold CacheNode.setStore
  by_cases h1 : n.eviction_policy = "LRU" <;>
    by_cases h2 : n.eviction_policy = "LFU" <;>
      by_cases h3 : n.eviction_policy = "TTL" <;>
        cases t <;> simp [h1, h2, h3]

theorem setStore_max_size (n : CacheNode) (k v : String)
    (t : Option Nat) (now : Nat) :
    (n.setStore k v t now).max_size = n.max_size := by
  unfold CacheNode.setStore
  by_cases h1 : n.eviction_policy = "LRU" <;>
    by_cases h2 : n.eviction_policy = "LFU" <;>
      by_cases h3 : n.eviction_policy = "TTL" <;>
        cases t <;> simp [h1, h2, h3]

theorem evict_lru (n : CacheNode) (hp : n.eviction_policy = "LRU")
    (now : Nat) :
    n.evict now = (pyMin n.access_times).map (fun p => n.invalidate p.1) := by
  unfold CacheNode.evict
  cases hm : pyMin n.access_times <;> simp [hp, hm]

theorem evict_lfu (n : CacheNode) (hp : n.eviction_policy = "LFU")
    (now : Nat) :
    n.evict now = (pyMin n.access_counts).map (fun p => n.invalidate p.1) := by
  unfold CacheNode.evict
  cases hm : pyMin n.access_counts <;> simp [hp, hm]

theorem get_absent (n : CacheNode) (k : String) (now : Nat)
    (h : dictGet n.cache k = none) : n.get k now = some (none, n) := by
  unfold CacheNode.get
  rw [h]

theorem get_lru_mem (n : CacheNode) (hp : n.eviction_policy = "LRU")
    (k v : String) (now : Nat) (hv : dictGet n.cache k = some v) :
    n.get k now
      = some (some v, { n with access_times := dictSet n.access_times k now }) := by
  unfold CacheNode.get
  rw [hv]
  simp [hp]

theorem get_lfu_mem (n : CacheNode) (hp : n.eviction_policy = "LFU")
    (k v : String) (now : Nat) (c : Nat)
    (hv : dictGet n.cache k = some v)
    (hc : dictGet n.access_counts k = some c) :
    n.get k now
      = some (some v,
          { n with access_counts := dictSet n.access_counts k (c + 1) }) := by
  unfold CacheNode.get
  rw [hv]
  simp [hp, hc]

theorem WFlru_invalidate (C : Int) (n : CacheNode) (k : String)
    (h : WFlru C n) : WFlru C (n.invalidate k) := by
  obtain ⟨hp, hm, hlen, hsk, hcnt, httl⟩ := h
  refine ⟨?_, ?_, ?_, ?_, ?_, ?_⟩
  · rw [invalidate_eviction_policy]; exact hp
  · rw [invalidate_max_size]; exact hm
  · calc (dictLen (n.invalidate k).cache : Int)
        ≤ (dictLen n.cache : Int) := Nat.cast_le.mpr (invalidate_cache_len_le n k)
      _ ≤ C := hlen
  · intro k2
    unfold CacheNode.invalidate
    split
    · simp only [dictMem_dictDel, hsk k2]
    · exact hsk k2
  · exact invalidate_counts_empty n k hcnt
  · exact invalidate_ttl_empty n k httl

theorem WFlfu_invalidate (C : Int) (n : CacheNode) (k : String)
    (h : WFlfu C n) : WFlfu C (n.invalidate k) := by
  obtain ⟨hp, hm, hlen, hsk, htm, httl⟩ := h
  refine ⟨?_, ?_, ?_, ?_, ?_, ?_⟩
  · rw [invalidate_eviction_policy]; exact hp
  · rw [invalidate_max_size]; exact hm
  · calc (dictLen (n.invalidate k).cache : Int)
        ≤ (dictLen n.cache : Int) := Nat.cast_le.mpr (invalidate_cache_len_le n k)
      _ ≤ C := hlen
  · intro k2
    unfold CacheNode.invalidate
    split
    · simp only [dictMem_dictDel, hsk k2]
    · exact hsk k2
  · exact invalidate_times_empty n k htm
  · exact invalidate_ttl_empty n k httl

theorem WFlru_get (C : Int) (n n2 : CacheNode) (k : String) (now : Nat)
    (h : WFlru C n) (hget : applyOp n (Op.get k now) = some n2) :
    WFlru C n2 := by
  obtain ⟨hp, hm, hlen, hsk, hcnt, httl⟩ := h
  simp only [applyOp] at hget
  cases hv : dictGet n.cache k with
  | none =>
    rw [get_absent n k now hv] at hget
    have hget2 : n2 = n := by simpa using hget.symm
    subst hget2
    exact ⟨hp, hm, hlen, hsk, hcnt, httl⟩
  | some v =>
    rw [get_lru_mem n hp k v now hv] at hget
    have hget2 : n2 = { n with access_times := dictSet n.access_times k now } := by
      simpa using hget.symm
    subst hget2
    refine ⟨hp, hm, hlen, ?_, hcnt, httl⟩
    intro k2
    have hmemk : dictMem n.cache k = true := by simp [dictMem, hv]
    by_cases hk2 : k2 = k
    · subst hk2
      simp only [dictMem_dictSet, hmemk]
      simp [hsk k2, hmemk]
    · simp only [dictMem_dictSet]
      simp [hsk k2, hk2]

theorem WFlfu_get (C : Int) (n n2 : CacheNode) (k : String) (now : Nat)
    (h : WFlfu C n) (hget : applyOp n (Op.get k now) = some n2) :
    WFlfu C n2 := by
  obtain ⟨hp, hm, hlen, hsk, htm, httl⟩ := h
  simp only [applyOp] at hget
  cases hv : dictGet n.cache k with
  | none =>
    rw [get_absent n k now hv] at hget
    have hget2 : n2 = n := by simpa using hget.symm
    subst hget2
    exact ⟨hp, hm, hlen, hsk, htm, httl⟩
  | some v =>
    have hmemk : dictMem n.cache k = true := by simp [dictMem, hv]
    have hmemc : dictMem n.access_counts k = true := by rw [hsk k]; exact hmemk
    obtain ⟨c, hc⟩ := Option.isSome_iff_exists.mp hmemc
    rw [get_lfu_mem n hp k v now c hv hc] at hget
    have hget2 : n2 = { n with access_counts := dictSet n.access_counts k (c + 1) } := by
      simpa using hget.symm
    subst hget2
    refine ⟨hp, hm, hlen, ?_, htm, httl⟩
    intro k2
    by_cases hk2 : k2 = k
    · subst hk2
      simp only [dictMem_dictSet]
      simp [hsk k2, hmemk]
    · simp only [dictMem_dictSet]
      simp [hsk k2, hk2]

theorem WFlru_set (C : Int) (hC : 0 < C) (n n2 : CacheNode)
    (k v : String) (t : Option Nat) (now : Nat)
    (h : WFlru C n) (hset : n.set k v t now = some n2) : WFlru C n2 := by
  obtain ⟨hp, hm, hlen, hsk, hcnt, httl⟩ := h
  unfold CacheNode.set at hset
  by_cases hcap : (dictLen n.cache : Int) ≥ n.max_size
  · rw [if_pos hcap, evict_lru n hp now] at hset
    cases hmin : pyMin n.access_times with
    | none => rw [hmin] at hset; simp at hset
    | some p =>
      rw [hmin] at hset
      have hn2 : n2 = (n.invalidate p.1).setStore k v t now := by
        simpa using hset.symm
      subst hn2
      have hpmem : p ∈ n.access_times := (pyMin_spec n.access_times p hmin).1
      have hmemt : dictMem n.access_times p.1 = true :=
        dictMem_of_pair_mem n.access_times p hpmem
      have hmemc : dictMem n.cache p.1 = true := by rw [← hsk p.1]; exact hmemt
      have hwfinv := WFlru_invalidate C n p.1 ⟨hp, hm, hlen, hsk, hcnt, httl⟩
      obtain ⟨hp2, hm2, _, hsk2, hcnt2, httl2⟩ := hwfinv
      have hlt : dictLen (n.invalidate p.1).cache < dictLen n.cache :=
        invalidate_cache_len_lt n p.1 hmemc
      rw [setStore_lru (n.invalidate p.1) hp2]
      refine ⟨hp2, hm2, ?_, ?_, hcnt2, httl2⟩
      · have h1 : dictLen (dictSet (n.invalidate p.1).cache k v)
            ≤ dictLen (n.invalidate p.1).cache + 1 := dictLen_dictSet_le _ k v
        have h2 : dictLen (n.invalidate p.1).cache + 1 ≤ dictLen n.cache :=
          Nat.succ_le_of_lt hlt
        have h3 : (dictLen (dictSet (n.invalidate p.1).cache k v) : Int)
            ≤ (dictLen n.cache : Int) := Nat.cast_le.mpr (le_trans h1 h2)
        exact le_trans h3 hlen
      · intro k2
        simp only [dictMem_dictSet, hsk2 k2]
  · rw [if_neg hcap] at hset
    have hn2 : n2 = n.setStore k v t now := by simpa using hset.symm
    subst hn2
    rw [setStore_lru n hp]
    refine ⟨hp, hm, ?_, ?_, hcnt, httl⟩
    · show (dictLen (dictSet n.cache k v) : Int) ≤ C
      have h1 : dictLen (dictSet n.cache k v) ≤ dictLen n.cache + 1 :=
        dictLen_dictSet_le _ k v
      have h2 : (dictLen n.cache : Int) < n.max_size := lt_of_not_ge hcap
      have h3 : (dictLen (dictSet n.cache k v) : Int)
          ≤ (dictLen n.cache : Int) + 1 := by exact_mod_cast h1
      rw [hm] at h2
      omega
    · intro k2
      simp only [dictMem_dictSet, hsk k2]

theorem WFlfu_set (C : Int) (hC : 0 < C) (n n2 : CacheNode)
    (k v : String) (t : Option Nat) (now : Nat)
    (h : WFlfu C n) (hset : n.set k v t now = some n2) : WFlfu C n2 := by
  obtain ⟨hp, hm, hlen, hsk, htm, httl⟩ := h
  unfold CacheNode.set at hset
  by_cases hcap : (dictLen n.cache : Int) ≥ n.max_size
  · rw [if_pos hcap, evict_lfu n hp now] at hset
    cases hmin : pyMin n.access_counts with
    | none => rw [hmin] at hset; simp at hset
    | some p =>
      rw [hmin] at hset
      have hn2 : n2 = (n.invalidate p.1).setStore k v t now := by
        simpa using hset.symm
      subst hn2
      have hpmem : p ∈ n.access_counts := (pyMin_spec n.access_counts p hmin).1
      have hmemt : dictMem n.access_counts p.1 = true :=
        dictMem_of_pair_mem n.access_counts p hpmem
      have hmemc : dictMem n.cache p.1 = true := by rw [← hsk p.1]; exact hmemt
      have hwfinv := WFlfu_invalidate C n p.1 ⟨hp, hm, hlen, hsk, htm, httl⟩
      obtain ⟨hp2, hm2, _, hsk2, htm2, httl2⟩ := hwfinv
      have hlt : dictLen (n.invalidate p.1).cache < dictLen n.cache :=
        invalidate_cache_len_lt n p.1 hmemc
      rw [setStore_lfu (n.invalidate p.1) hp2]
      refine ⟨hp2, hm2, ?_, ?_, htm2, httl2⟩
      · have h1 : dictLen (dictSet (n.invalidate p.1).cache k v)
            ≤ dictLen (n.invalidate p.1).cache + 1 := dictLen_dictSet_le _ k v
        have h2 : dictLen (n.invalidate p.1).cache + 1 ≤ dictLen n.cache :=
          Nat.succ_le_of_lt hlt
        have h3 : (dictLen (dictSet (n.invalidate p.1).cache k v) : Int)
            ≤ (dictLen n.cache : Int) := Nat.cast_le.mpr (le_trans h1 h2)
        exact le_trans h3 hlen
      · intro k2
        simp only [dictMem_dictSet, hsk2 k2]
  · rw [if_neg hcap] at hset
    have hn2 : n2 = n.setStore k v t now := by simpa using hset.symm
    subst hn2
    rw [setStore_lfu n hp]
    refine ⟨hp, hm, ?_, ?_, htm, httl⟩
    · show (dictLen (dictSet n.cache k v) : Int) ≤ C
      have h1 : dictLen (dictSet n.cache k v) ≤ dictLen n.cache + 1 :=
        dictLen_dictSet_le _ k v
      have h2 : (dictLen n.cache : Int) < n.max_size := lt_of_not_ge hcap
      have h3 : (dictLen (dictSet n.cache k v) : Int)
          ≤ (dictLen n.cache : Int) + 1 := by exact_mod_cast h1
      rw [hm] at h2
      omega
    · intro k2
      simp only [dictMem_dictSet, hsk k2]

theorem WFlru_applyOp (C : Int) (hC : 0 < C) (n n2 : CacheNode) (op : Op)
    (h : WFlru C n) (hop : applyOp n op = some n2) : WFlru C n2 := by
  cases op with
  | get k now => exact WFlru_get C n n2 k now h hop
  | set k v t now =>
    simp only [applyOp] at hop
    exact WFlru_set C hC n n2 k v t now h hop
  | invalidate k =>
    simp only [applyOp, Option.some_inj] at hop
    rw [← hop]
    exact WFlru_invalidate C n k h

theorem WFlfu_applyOp (C : Int) (hC : 0 < C) (n n2 : CacheNode) (op : Op)
    (h : WFlfu C n) (hop : applyOp n op = some n2) : WFlfu C n2 := by
  cases op with
  | get k now => exact WFlfu_get C n n2 k now h hop
  | set k v t now =>
    simp only [applyOp] at hop
    exact WFlfu_set C hC n n2 k v t now h hop
  | invalidate k =>
    simp only [applyOp, Option.some_inj] at hop
    rw [← hop]
    exact WFlfu_invalidate C n k h

theorem WFlru_runOps (C : Int) (hC : 0 < C) (ops : List Op) :
    ∀ n n2 : CacheNode, WFlru C n → runOps n ops = some n2 → WFlru C n2 := by
  induction ops with
  | nil =>
    intro n n2 h hrun
    simp only [runOps, Option.some_inj] at hrun
    rw [← hrun]; exact h
  | cons op ops ih =>
    intro n n2 h hrun
    unfold runOps at hrun
    cases hop : applyOp n op with
    | none => rw [hop] at hrun; simp at hrun
    | some m =>
      rw [hop] at hrun
      exact ih m n2 (WFlru_applyOp C hC n m op h hop) hrun

theorem WFlfu_runOps (C : Int) (hC : 0 < C) (ops : List Op) :
    ∀ n n2 : CacheNode, WFlfu C n → runOps n ops = some n2 → WFlfu C n2 := by
  induction ops with
  | nil =>
    intro n n2 h hrun
    simp only [runOps, Option.some_inj] at hrun
    rw [← hrun]; exact h
  | cons op ops ih =>
    intro n n2 h hrun
    unfold runOps at hrun
    cases hop : applyOp n op with
    | none => rw [hop] at hrun; simp at hrun
    | some m =>
      rw [hop] at hrun
      exact ih m n2 (WFlfu_applyOp C hC n m op h hop) hrun

/-! ## Claim theorems -/

/-- C1: for every CacheShard with policy LRU or LFU and positive capacity
`C`, after any sequence of public operations (`get`, `set`, `invalidate`)
returns, the number of entries is at most `C`, and the key set of each
policy-metadata map (`access_times`, `access_counts`, `ttl`) is a subset
of the key set of the entries map. -/
theorem C1_lru_lfu_capacity_invariant (pol : String)
    (hpol : pol = "LRU" ∨ pol = "LFU") (C : Int) (hC : 0 < C)
    (nid : String) (ops : List Op) (n2 : CacheNode)
    (hrun : runOps (CacheNode.init nid pol C) ops = some n2) :
    (dictLen n2.cache : Int) ≤ C ∧
    (∀ k, dictMem n2.access_times k = true → dictMem n2.cache k = true) ∧
    (∀ k, dictMem n2.access_counts k = true → dictMem n2.cache k = true) ∧
    (∀ k, dictMem n2.ttl k = true → dictMem n2.cache k = true) := by
  rcases hpol with hpol | hpol
  · subst hpol
    have hwf0 : WFlru C (CacheNode.init nid "LRU" C) := by
      refine ⟨rfl, rfl, ?_, fun k => rfl, rfl, rfl⟩
      show ((dictLen ([] : Dict String String) : Int)) ≤ C
      simp [dictLen]
      omega
    obtain ⟨_, _, hlen, hsk, hcnt, httl⟩ :=
      WFlru_runOps C hC ops _ n2 hwf0 hrun
    refine ⟨hlen, ?_, ?_, ?_⟩
    · intro k hk; rw [← hsk k]; exact hk
    · intro k hk; rw [hcnt] at hk; simp [dictMem, dictGet] at hk
    · intro k hk; rw [httl] at hk; simp [dictMem, dictGet] at hk
  · subst hpol
    have hwf0 : WFlfu C (CacheNode.init nid "LFU" C) := by
      refine ⟨rfl, rfl, ?_, fun k => rfl, rfl, rfl⟩
      show ((dictLen ([] : Dict String String) : Int)) ≤ C
      simp [dictLen]
      omega
    obtain ⟨_, _, hlen, hsk, htm, httl⟩ :=
      WFlfu_runOps C hC ops _ n2 hwf0 hrun
    refine ⟨hlen, ?_, ?_, ?_⟩
    · intro k hk; rw [htm] at hk; simp [dictMem, dictGet] at hk
    · intro k hk; rw [← hsk k]; exact hk
    · intro k hk; rw [httl] at hk; simp [dictMem, dictGet] at hk

/-- Witness for C1 at a concrete input: policy LRU, capacity 2, the
four-operation scenario `c6ops`. -/
theorem C1_lru_lfu_capacity_invariant_witness :
    (dictLen c6final.cache : Int) ≤ 2 ∧
    (∀ k, dictMem c6final.access_times k = true →
      dictMem c6final.cache k = true) ∧
    (∀ k, dictMem c6final.access_counts k = true →
      dictMem c6final.cache k = true) ∧
    (∀ k, dictMem c6final.ttl k = true → dictMem c6final.cache k = true) :=
  C1_lru_lfu_capacity_invariant "LRU" (Or.inl rfl) 2 (by decide) "L" c6ops
    c6final (by decide)

/-! ## TTL eviction (claims C3, C5) -/

theorem pair_mem_of_dictGet [DecidableEq κ] (d : Dict κ α) (k : κ) (v : α)
    (h : dictGet d k = some v) : (k, v) ∈ d := by
  induction d with
  | nil => simp [dictGet] at h
  | cons p d ih =>
    by_cases hk : k = p.1
    · simp only [dictGet, hk, if_true, Option.some_inj] at h
      subst hk
      rw [← h]
      exact List.mem_cons_self _ _
    · simp only [dictGet, hk, if_false] at h
      exact List.mem_cons_of_mem p (ih h)

theorem dictGet_of_pair_mem_nodup [DecidableEq κ] (d : Dict κ α) (p : κ × α)
    (hnd : (d.map Prod.fst).Nodup) (hp : p ∈ d) : dictGet d p.1 = some p.2 := by
  induction d with
  | nil => simp at hp
  | cons q d ih =>
    rcases List.mem_cons.mp hp with h | h
    · subst h
      simp [dictGet]
    · have hq : q.1 ∉ d.map Prod.fst := (List.nodup_cons.mp hnd).1
      have hne : p.1 ≠ q.1 := by
        intro he
        exact hq (he ▸ List.mem_map_of_mem Prod.fst h)
      simp only [dictGet, hne, if_false]
      exact ih (List.nodup_cons.mp hnd).2 h

theorem fold_invalidate_mem (ks : List String) :
    ∀ (n : CacheNode) (k : String),
      dictMem ((ks.foldl (fun m k2 => m.invalidate k2) n).cache) k
        = (dictMem n.cache k && !(decide (k ∈ ks))) := by
  induction ks with
  | nil => intro n k; simp
  | cons k0 ks ih =>
    intro n k
    simp only [List.foldl_cons]
    rw [ih (n.invalidate k0) k, invalidate_mem_cache]
    by_cases h1 : k = k0 <;> by_cases h2 : k ∈ ks <;>
      simp [h1, h2]

theorem evict_ttl (n : CacheNode) (hp : n.eviction_policy = "TTL")
    (now : Nat) :
    n.evict now
      = some (((n.ttl.filter (fun p => decide (p.2 ≤ now))).map Prod.fst).foldl
          (fun m k => m.invalidate k) n) := by
  unfold CacheNode.evict
  simp [hp]

/-- C3: on a TTL shard, `evictOne` removes exactly the entries whose
recorded expiry is at or before the current time; consequently from the
reachable full-capacity state `ttlFull` (capacity 1, one unexpired entry),
setting a new key removes nothing and leaves capacity + 1 = 2 entries. -/
theorem C3_ttl_evict_exact_and_overflow (n : CacheNode) (now : Nat)
    (hp : n.eviction_policy = "TTL")
    (hnd : (n.ttl.map Prod.fst).Nodup) :
    (∃ m, n.evict now = some m ∧
      ∀ k, dictMem m.cache k = (dictMem n.cache k && !(ttlExpired n now k))) ∧
    (runOps ttlNode0 [Op.set "A" "v" (some 10) 0] = some ttlFull ∧
     (dictLen ttlFull.cache : Int) = ttlFull.max_size ∧
     (∀ k, ttlExpired ttlFull 1 k = false) ∧
     ttlFull.set "B" "w" none 1 = some ttlOver ∧
     dictMem ttlOver.cache "A" = true ∧
     (dictLen ttlOver.cache : Int) = ttlOver.max_size + 1) := by
  constructor
  · refine ⟨_, evict_ttl n hp now, ?_⟩
    intro k
    rw [fold_invalidate_mem]
    congr 1
    congr 1
    by_cases hex : ttlExpired n now k = true
    · unfold ttlExpired at hex
      cases hg : dictGet n.ttl k with
      | none => rw [hg] at hex; simp at hex
      | some e =>
        rw [hg] at hex
        have hle : e ≤ now := by simpa using hex
        have hmem : (k, e) ∈ n.ttl := pair_mem_of_dictGet n.ttl k e hg
        have hmem2 : k ∈ (n.ttl.filter (fun p => decide (p.2 ≤ now))).map Prod.fst := by
          have hf : (k, e) ∈ n.ttl.filter (fun p => decide (p.2 ≤ now)) := by
            rw [List.mem_filter]
            exact ⟨hmem, by simpa using hle⟩
          exact List.mem_map_of_mem Prod.fst hf
        simp [hmem2, hex]
        unfold ttlExpired
        rw [hg]
        simpa using hle
    · have hex2 : ttlExpired n now k = false := Bool.eq_false_iff.mpr hex
      rw [hex2]
      have hnot : k ∉ (n.ttl.filter (fun p => decide (p.2 ≤ now))).map Prod.fst := by
        intro hk
        obtain ⟨q, hq, hqk⟩ := List.mem_map.mp hk
        rw [List.mem_filter] at hq
        have hg : dictGet n.ttl q.1 = some q.2 :=
          dictGet_of_pair_mem_nodup n.ttl q hnd hq.1
        apply hex
        unfold ttlExpired
        rw [hqk] at hg
        rw [hg]
        simpa using hq.2
      simp [hnot]
  · refine ⟨by decide, by decide, ?_, by decide, by decide, by decide⟩
    intro k
    by_cases hk : k = "A" <;> simp [ttlExpired, ttlFull, dictGet, hk]

/-- Witness for C3 at the concrete reachable state `ttlFull` at time 1. -/
theorem C3_ttl_evict_exact_and_overflow_witness :
    (∃ m, ttlFull.evict 1 = some m ∧
      ∀ k, dictMem m.cache k
        = (dictMem ttlFull.cache k && !(ttlExpired ttlFull 1 k))) ∧
    (runOps ttlNode0 [Op.set "A" "v" (some 10) 0] = some ttlFull ∧
     (dictLen ttlFull.cache : Int) = ttlFull.max_size ∧
     (∀ k, ttlExpired ttlFull 1 k = false) ∧
     ttlFull.set "B" "w" none 1 = some ttlOver ∧
     dictMem ttlOver.cache "A" = true ∧
     (dictLen ttlOver.cache : Int) = ttlOver.max_size + 1) :=
  C3_ttl_evict_exact_and_overflow ttlFull 1 rfl (by decide)

/-! ## Overwrite at capacity (claim C4) -/

/-- C4 counterexample: on a full capacity-2 LRU shard holding `A` (most
recently touched) and `B`, overwriting the existing key `A` still runs
eviction — the size test `len(cache) >= max_size` ignores key presence —
so `B` is evicted and the entry count drops from 2 to 1, refuting both
"leaves the number of entries and the set of stored keys unchanged" and
"eviction runs only when the key being set is not already present". -/
theorem C4_overwrite_counterexample :
    runOps lruInit (c4ops.take 3) = some c4pre ∧
    dictLen c4pre.cache = 2 ∧ c4pre.max_size = 2 ∧
    dictMem c4pre.cache "A" = true ∧
    runOps lruInit c4ops = some c4final ∧
    dictLen c4final.cache = 1 ∧
    dictMem c4final.cache "B" = false := by decide

/-- C4 amended: overwriting an existing key below capacity succeeds,
replaces the value, and leaves the entry count and key set unchanged; but
at `len(entries) ≥ capacity` the `set` first runs `evictOne` even when the
key is already present (the size check ignores key presence), so the
overwrite may evict another entry. -/
theorem C4_overwrite_amended (n : CacheNode) (k v : String) (t : Option Nat)
    (now : Nat) (hmem : dictMem n.cache k = true) :
    ((dictLen n.cache : Int) < n.max_size →
      n.set k v t now = some (n.setStore k v t now) ∧
      dictLen (n.setStore k v t now).cache = dictLen n.cache ∧
      (∀ k2, dictMem (n.setStore k v t now).cache k2 = dictMem n.cache k2) ∧
      dictGet (n.setStore k v t now).cache k = some v) ∧
    ((dictLen n.cache : Int) ≥ n.max_size →
      n.set k v t now = (n.evict now).map (fun m => m.setStore k v t now)) := by
  constructor
  · intro hlt
    refine ⟨?_, ?_, ?_, ?_⟩
    · unfold CacheNode.set
      rw [if_neg (not_le.mpr hlt)]
    · rw [setStore_cache]
      exact dictLen_dictSet_mem n.cache k v hmem
    · intro k2
      rw [setStore_cache, dictMem_dictSet]
      by_cases h : k2 = k
      · subst h; simp [hmem]
      · simp [h]
    · rw [setStore_cache]
      exact dictGet_dictSet_self n.cache k v
  · intro hge
    unfold CacheNode.set
    rw [if_pos hge]

/-- Witness for the amended C4 on a concrete shard holding the key. -/
theorem C4_overwrite_amended_witness :
    ((dictLen c4pre.cache : Int) < c4pre.max_size →
      c4pre.set "A" "9" none 4 = some (c4pre.setStore "A" "9" none 4) ∧
      dictLen (c4pre.setStore "A" "9" none 4).cache = dictLen c4pre.cache ∧
      (∀ k2, dictMem (c4pre.setStore "A" "9" none 4).cache k2
        = dictMem c4pre.cache k2) ∧
      dictGet (c4pre.setStore "A" "9" none 4).cache "A" = some "9") ∧
    ((dictLen c4pre.cache : Int) ≥ c4pre.max_size →
      c4pre.set "A" "9" none 4
        = (c4pre.evict 4).map (fun m => m.setStore "A" "9" none 4)) :=
  C4_overwrite_amended c4pre "A" "9" none 4 (by decide)

/-! ## TTL expiry boundary (claim C5) -/

/-- C5 counterexample: `c5node` is reached by `set("K","v",ttl=5)` at time
0, so the recorded expiry is 5; a `get` at time 5 — a time at (hence "at or
after") the expiry — returns the stored value and removes nothing, because
the code tests `time.time() > self.ttl[key]` strictly. -/
theorem C5_ttl_boundary_counterexample :
    (CacheNode.init "t" "TTL" 10).set "K" "v" (some 5) 0 = some c5node ∧
    dictGet c5node.ttl "K" = some 5 ∧
    c5node.get "K" 5 = some (some "v", c5node) := by decide

/-- C5 amended: on a TTL shard holding key `k` with recorded expiry `e`, a
`get` at a time strictly after `e` returns absent and removes the entry
and its metadata, so every subsequent `get` of `k` also returns absent; a
`get` at or before `e` returns the stored value and leaves the shard
unchanged. -/
theorem C5_ttl_lazy_expiry_amended (n : CacheNode) (k v : String)
    (e now : Nat) (hp : n.eviction_policy = "TTL")
    (hv : dictGet n.cache k = some v) (he : dictGet n.ttl k = some e) :
    (e < now →
      n.get k now = some (none, n.invalidate k) ∧
      dictMem (n.invalidate k).cache k = false ∧
      (∀ now2, (n.invalidate k).get k now2 = some (none, n.invalidate k))) ∧
    (now ≤ e → n.get k now = some (some v, n)) := by
  have hmemc : dictMem n.cache k = true := by simp [dictMem, hv]
  constructor
  · intro hlt
    have hdel : dictGet (n.invalidate k).cache k = none := by
      unfold CacheNode.invalidate
      rw [if_pos hmemc]
      exact dictGet_dictDel_self n.cache k
    refine ⟨?_, ?_, ?_⟩
    · unfold CacheNode.get
      rw [hv]
      simp [hp, he, hlt]
    · simp [dictMem, hdel]
    · intro now2
      exact get_absent (n.invalidate k) k now2 hdel
  · intro hle
    unfold CacheNode.get
    rw [hv]
    simp [hp, he, not_lt.mpr hle]

/-- Witness for the amended C5 on the concrete reachable node `c5node`,
with a strictly-late read at time 6 and an on-time read at time 5. -/
theorem C5_ttl_lazy_expiry_amended_witness :
    ((5 : Nat) < 6 →
      c5node.get "K" 6 = some (none, c5node.invalidate "K") ∧
      dictMem (c5node.invalidate "K").cache "K" = false ∧
      (∀ now2, (c5node.invalidate "K").get "K" now2
        = some (none, c5node.invalidate "K"))) ∧
    ((6 : Nat) ≤ 5 → c5node.get "K" 6 = some (some "v", c5node)) :=
  C5_ttl_lazy_expiry_amended c5node "K" "v" 5 6 rfl (by decide) (by decide)

/-! ## LRU eviction order (claim C6) -/

/-- C6: on an LRU shard at full capacity, `set` of a new key first removes
the entry whose last-access timestamp is minimal (and `get` refreshes that
timestamp); in the concrete capacity-2 scenario `set(A,1)`, `set(B,2)`,
`get(A)`, `set(C,3)`, key `B` is evicted, after which `get(A) = "1"`,
`get(B)` is absent and `get(C) = "3"`. -/
theorem C6_lru_eviction_order (n : CacheNode) (now : Nat) (k v : String)
    (t : Option Nat) (k0 : String) (t0 : Nat)
    (hp : n.eviction_policy = "LRU")
    (hcap : (dictLen n.cache : Int) ≥ n.max_size)
    (hnew : dictMem n.cache k = false)
    (hmin : pyMin n.access_times = some (k0, t0)) :
    (n.set k v t now = some ((n.invalidate k0).setStore k v t now) ∧
     (k0, t0) ∈ n.access_times ∧
     (∀ q ∈ n.access_times, t0 ≤ q.2)) ∧
    (runOps lruInit c6ops = some c6final ∧
     dictMem c6final.cache "B" = false ∧
     (c6final.get "A" 5).map Prod.fst = some (some "1") ∧
     (c6final.get "B" 6).map Prod.fst = some none ∧
     (c6final.get "C" 7).map Prod.fst = some (some "3")) := by
  constructor
  · refine ⟨?_, ?_, ?_⟩
    · unfold CacheNode.set
      rw [if_pos hcap, evict_lru n hp now, hmin]
      rfl
    · exact (pyMin_spec n.access_times (k0, t0) hmin).1
    · intro q hq
      exact (pyMin_spec n.access_times (k0, t0) hmin).2 q hq
  · exact ⟨by decide, by decide, by decide, by decide, by decide⟩

/-- Witness for C6 on the concrete full shard `c4pre` (entries `A`, `B`,
with `B` least recently touched), setting the fresh key `C`. -/
theorem C6_lru_eviction_order_witness :
    (c4pre.set "C" "3" none 4
        = some ((c4pre.invalidate "B").setStore "C" "3" none 4) ∧
     ("B", 2) ∈ c4pre.access_times ∧
     (∀ q ∈ c4pre.access_times, 2 ≤ q.2)) ∧
    (runOps lruInit c6ops = some c6final ∧
     dictMem c6final.cache "B" = false ∧
     (c6final.get "A" 5).map Prod.fst = some (some "1") ∧
     (c6final.get "B" 6).map Prod.fst = some none ∧
     (c6final.get "C" 7).map Prod.fst = some (some "3")) :=
  C6_lru_eviction_order c4pre 4 "C" "3" none "B" 2 rfl (by decide)
    (by decide) (by decide)

/-! ## Publish/subscribe invalidation fan-out (claim C7) -/

theorem storeInvalidate_keyGone (st : Store) (r id msg : String)
    (h : ∀ n, dictGet st id = some n → dictMem n.cache msg = false) :
    ∀ n, dictGet (storeInvalidate st r msg) id = some n →
      dictMem n.cache msg = false := by
  intro n hn
  unfold storeInvalidate at hn
  cases hr : dictGet st r with
  | none => rw [hr] at hn; exact h n hn
  | some m =>
    rw [hr] at hn
    by_cases hid : id = r
    · subst hid
      rw [dictGet_dictSet_self] at hn
      injection hn with hn
      rw [← hn, invalidate_mem_cache]
      simp
    · rw [dictGet_dictSet_ne st r id (m.invalidate msg) hid] at hn
      exact h n hn

theorem storeInvalidate_self_keyGone (st : Store) (id msg : String) :
    ∀ n, dictGet (storeInvalidate st id msg) id = some n →
      dictMem n.cache msg = false := by
  intro n hn
  unfold storeInvalidate at hn
  cases hr : dictGet st id with
  | none =>
    rw [hr] at hn
    rw [hr] at hn
    exact Option.noConfusion hn
  | some m =>
    rw [hr, dictGet_dictSet_self] at hn
    injection hn with hn
    rw [← hn, invalidate_mem_cache]
    simp

theorem fold_storeInvalidate_preserve (ids : List String) :
    ∀ (st : Store) (id msg : String),
      (∀ n, dictGet st id = some n → dictMem n.cache msg = false) →
      ∀ n, dictGet (ids.foldl (fun s r => storeInvalidate s r msg) st) id
          = some n → dictMem n.cache msg = false := by
  induction ids with
  | nil => intro st id msg h; simpa using h
  | cons r ids ih =>
    intro st id msg h
    simp only [List.foldl_cons]
    exact ih _ id msg (storeInvalidate_keyGone st r id msg h)

theorem fold_storeInvalidate_keyGone (ids : List String) :
    ∀ (st : Store) (id msg : String), id ∈ ids →
      ∀ n, dictGet (ids.foldl (fun s r => storeInvalidate s r msg) st) id
          = some n → dictMem n.cache msg = false := by
  induction ids with
  | nil => intro st id msg h; simp at h
  | cons r ids ih =>
    intro st id msg hid n hn
    simp only [List.foldl_cons] at hn
    rcases List.mem_cons.mp hid with h1 | h1
    · subst h1
      exact fold_storeInvalidate_preserve ids (storeInvalidate st id msg) id
        msg (storeInvalidate_self_keyGone st id msg) n hn
    · exact ih (storeInvalidate st r msg) id msg h1 n hn

/-- C7: `publish(channel, key)` invalidates `key` on the shard behind each
reference in the channel's subscriber list, in subscription order, one
call per occurrence (duplicates kept by `subscribe`); with no subscriber
entry it changes no state; afterwards the key is absent from every
subscribed shard. -/
theorem C7_publish_invalidation_fanout (ps : PubSubSystem) (st : Store)
    (channel key : String) :
    (dictGet ps.subscribers channel = none →
      ps.publish st channel key = st) ∧
    (∀ ids, dictGet ps.subscribers channel = some ids →
      ps.publish st channel key
          = ids.foldl (fun s r => storeInvalidate s r key) st ∧
      ∀ r ∈ ids, ∀ n, dictGet (ps.publish st channel key) r = some n →
        dictMem n.cache key = false) ∧
    (∀ l id, dictGet ps.subscribers channel = some l →
      dictGet ((ps.subscribe channel id).subscribe channel id).subscribers
          channel = some (l ++ [id, id])) := by
  refine ⟨?_, ?_, ?_⟩
  · intro h
    unfold PubSubSystem.publish
    rw [h]
  · intro ids h
    have hpub : ps.publish st channel key
        = ids.foldl (fun s r => storeInvalidate s r key) st := by
      unfold PubSubSystem.publish
      rw [h]
    refine ⟨hpub, ?_⟩
    intro r hr n hn
    rw [hpub] at hn
    exact fold_storeInvalidate_keyGone ids st r key hr n hn
  · intro l id h
    have h1 : (ps.subscribe channel id).subscribers
        = dictSet ps.subscribers channel (l ++ [id]) := by
      unfold PubSubSystem.subscribe
      rw [h]
    have h2 : dictGet (ps.subscribe channel id).subscribers channel
        = some (l ++ [id]) := by
      rw [h1]
      exact dictGet_dictSet_self ps.subscribers channel (l ++ [id])
    have h3 : ∀ qs : PubSubSystem,
        dictGet qs.subscribers channel = some (l ++ [id]) →
        (qs.subscribe channel id).subscribers
          = dictSet qs.subscribers channel ((l ++ [id]) ++ [id]) := by
      intro qs hq
      unfold PubSubSystem.subscribe
      rw [hq]
    rw [h3 (ps.subscribe channel id) h2, dictGet_dictSet_self]
    simp

/-- Witness for C7: publishing `K` on channel `inv` removes `K` from both
subscribed shards; publishing on an unsubscribed channel is a no-op; a
double subscription appends the reference twice. -/
theorem C7_publish_invalidation_fanout_witness :
    (psEx.publish stEx "inv" "K"
        = ["s1", "s2", "s1"].foldl (fun s r => storeInvalidate s r "K") stEx ∧
     ∀ r ∈ ["s1", "s2", "s1"], ∀ n,
       dictGet (psEx.publish stEx "inv" "K") r = some n →
         dictMem n.cache "K" = false) ∧
    psEx.publish stEx "other" "K" = stEx ∧
    dictGet ((psEx.subscribe "inv" "s2").subscribe "inv" "s2").subscribers
        "inv" = some (["s1", "s2", "s1"] ++ ["s2", "s2"]) :=
  ⟨(C7_publish_invalidation_fanout psEx stEx "inv" "K").2.1
      ["s1", "s2", "s1"] (by decide),
   (C7_publish_invalidation_fanout psEx stEx "other" "K").1 (by decide),
   (C7_publish_invalidation_fanout psEx stEx "inv" "K").2.2
      ["s1", "s2", "s1"] "s2" (by decide)⟩

/-! ## Ring lookup (claim C2) -/

theorem find?_sorted_min (l : List Nat) (x y : Nat)
    (hs : l.Sorted (· ≤ ·))
    (hf : l.find? (fun k => decide (x ≤ k)) = some y) :
    x ≤ y ∧ y ∈ l ∧ ∀ z ∈ l, x ≤ z → y ≤ z := by
  induction l with
  | nil => simp at hf
  | cons a l ih =>
    by_cases ha : x ≤ a
    · rw [List.find?_cons_of_pos _ (by simpa using ha)] at hf
      injection hf with hf
      subst hf
      refine ⟨ha, List.mem_cons_self _ _, ?_⟩
      intro z hz _
      rcases List.mem_cons.mp hz with h1 | h1
      · rw [h1]
      · exact List.rel_of_sorted_cons hs z h1
    · rw [List.find?_cons_of_neg _ (by simpa using ha)] at hf
      obtain ⟨h1, h2, h3⟩ := ih hs.of_cons hf
      refine ⟨h1, List.mem_cons_of_mem a h2, ?_⟩
      intro z hz hxz
      rcases List.mem_cons.mp hz with hz1 | hz1
      · exact absurd (hz1 ▸ hxz) ha
      · exact h3 z hz1 hxz

theorem find?_sorted_none (l : List Nat) (x : Nat)
    (hf : l.find? (fun k => decide (x ≤ k)) = none) :
    ∀ z ∈ l, z < x := by
  intro z hz
  have := List.find?_eq_none.mp hf z hz
  simpa using this

theorem sorted_head_min (k0 : Nat) (l : List Nat)
    (hs : (k0 :: l).Sorted (· ≤ ·)) : ∀ z ∈ k0 :: l, k0 ≤ z := by
  intro z hz
  rcases List.mem_cons.mp hz with h1 | h1
  · rw [h1]
  · exact List.rel_of_sorted_cons hs z h1

/-- Successor rule on an arbitrary non-empty ring dict: `_get_node` returns
the node stored at the smallest ring hash at or above the key's hash, or —
when every ring hash is below the key's hash — at the smallest ring hash. -/
theorem get_node_spec (h : String → Nat) (node_map : Dict Nat CacheNode)
    (key : String) (hne : node_map ≠ []) :
    ∃ nk node,
      nk ∈ node_map.map Prod.fst ∧
      get_node h node_map key = some node ∧
      dictGet node_map nk = some node ∧
      ((∃ j ∈ node_map.map Prod.fst, h key ≤ j) →
        h key ≤ nk ∧ ∀ j ∈ node_map.map Prod.fst, h key ≤ j → nk ≤ j) ∧
      ((∀ j ∈ node_map.map Prod.fst, j < h key) →
        ∀ j ∈ node_map.map Prod.fst, nk ≤ j) := by
  have hsorted : (List.insertionSort (· ≤ ·) (node_map.map Prod.fst)).Sorted
      (· ≤ ·) := List.sorted_insertionSort (· ≤ ·) (node_map.map Prod.fst)
  have hmemiff : ∀ x : Nat,
      x ∈ List.insertionSort (· ≤ ·) (node_map.map Prod.fst)
        ↔ x ∈ node_map.map Prod.fst := fun x => List.mem_insertionSort _
  cases hf : (List.insertionSort (· ≤ ·) (node_map.map Prod.fst)).find?
      (fun nk => decide (h key ≤ nk)) with
  | some nk =>
    obtain ⟨h1, h2, h3⟩ := find?_sorted_min _ (h key) nk hsorted hf
    have hnkkeys : nk ∈ node_map.map Prod.fst := (hmemiff nk).mp h2
    obtain ⟨node, hnode⟩ := Option.isSome_iff_exists.mp
      (dictGet_isSome_of_mem_keys node_map nk hnkkeys)
    refine ⟨nk, node, hnkkeys, ?_, hnode, ?_, ?_⟩
    · unfold get_node
      simp only [hf, hnode]
    · intro _
      exact ⟨h1, fun j hj hle => h3 j ((hmemiff j).mpr hj) hle⟩
    · intro hall2 j hj
      exact absurd h1 (not_le.mpr (hall2 nk hnkkeys))
  | none =>
    have hall : ∀ z ∈ List.insertionSort (· ≤ ·) (node_map.map Prod.fst),
        z < h key := find?_sorted_none _ (h key) hf
    have hkeysne : node_map.map Prod.fst ≠ [] := by
      cases node_map with
      | nil => exact absurd rfl hne
      | cons p d => simp
    cases hks : List.insertionSort (· ≤ ·) (node_map.map Prod.fst) with
    | nil =>
      exfalso
      apply hkeysne
      have hperm := List.perm_insertionSort (· ≤ ·) (node_map.map Prod.fst)
      rw [hks] at hperm
      exact (List.Perm.nil_eq hperm).symm
    | cons k0 rest =>
      have hk0keys : k0 ∈ node_map.map Prod.fst := by
        rw [← hmemiff k0, hks]
        exact List.mem_cons_self _ _
      obtain ⟨node, hnode⟩ := Option.isSome_iff_exists.mp
        (dictGet_isSome_of_mem_keys node_map k0 hk0keys)
      refine ⟨k0, node, hk0keys, ?_, hnode, ?_, ?_⟩
      · unfold get_node
        have hf2 : List.find? (fun nk => decide (h key ≤ nk)) (k0 :: rest)
            = none := by
          rw [← hks]
          exact hf
        simp only [hks, hf2, hnode]
      · intro hex
        obtain ⟨j, hj, hle⟩ := hex
        have hjs : j ∈ List.insertionSort (· ≤ ·) (node_map.map Prod.fst) :=
          (hmemiff j).mpr hj
        exact absurd hle (not_le.mpr (hall j hjs))
      · intro _ j hj
        have hjs : j ∈ List.insertionSort (· ≤ ·) (node_map.map Prod.fst) :=
          (hmemiff j).mpr hj
        rw [hks] at hjs
        have hsorted2 : (k0 :: rest).Sorted (· ≤ ·) := hks ▸ hsorted
        exact sorted_head_min k0 rest hsorted2 j hjs

/-- C2: on the ring built from `nodes` with digest `h`, `locate` hashes the
key with the same digest `h` and returns the shard stored at the smallest
ring hash at or above `h key`, wrapping to the smallest ring hash when
`h key` exceeds every ring hash.  `get_node` is a plain function of the
ring and the key, so repeated calls with the same key on the same ring
return the same shard by definitional purity. -/
theorem C2_locate_successor (h : String → Nat) (nodes : List CacheNode)
    (key : String) (hne : createNodeMap h nodes ≠ []) :
    ∃ nk node,
      nk ∈ (createNodeMap h nodes).map Prod.fst ∧
      get_node h (createNodeMap h nodes) key = some node ∧
      dictGet (createNodeMap h nodes) nk = some node ∧
      ((∃ j ∈ (createNodeMap h nodes).map Prod.fst, h key ≤ j) →
        h key ≤ nk ∧
        ∀ j ∈ (createNodeMap h nodes).map Prod.fst, h key ≤ j → nk ≤ j) ∧
      ((∀ j ∈ (createNodeMap h nodes).map Prod.fst, j < h key) →
        ∀ j ∈ (createNodeMap h nodes).map Prod.fst, nk ≤ j) :=
  get_node_spec h (createNodeMap h nodes) key hne

/-- Witness for C2 on the concrete one-shard ring built with `hEx`. -/
theorem C2_locate_successor_witness :
    ∃ nk node,
      nk ∈ (createNodeMap hEx [nodeA1]).map Prod.fst ∧
      get_node hEx (createNodeMap hEx [nodeA1]) "k" = some node ∧
      dictGet (createNodeMap hEx [nodeA1]) nk = some node ∧
      ((∃ j ∈ (createNodeMap hEx [nodeA1]).map Prod.fst, hEx "k" ≤ j) →
        hEx "k" ≤ nk ∧
        ∀ j ∈ (createNodeMap hEx [nodeA1]).map Prod.fst,
          hEx "k" ≤ j → nk ≤ j) ∧
      ((∀ j ∈ (createNodeMap hEx [nodeA1]).map Prod.fst, j < hEx "k") →
        ∀ j ∈ (createNodeMap hEx [nodeA1]).map Prod.fst, nk ≤ j) :=
  C2_locate_successor hEx [nodeA1] "k" (by decide)

/-! ## Ring construction and collisions (claim C8) -/

theorem addVirtual_len (h : String → Nat) (node : CacheNode)
    (idxs : List Nat) :
    ∀ m : Dict Nat CacheNode,
      dictLen (idxs.foldl
          (fun m2 i => dictSet m2 (h (vpName node.node_id i)) node) m)
        ≤ dictLen m + idxs.length := by
  induction idxs with
  | nil => intro m; simp
  | cons i idxs ih =>
    intro m
    simp only [List.foldl_cons, List.length_cons]
    calc dictLen (idxs.foldl
            (fun m2 i => dictSet m2 (h (vpName node.node_id i)) node)
            (dictSet m (h (vpName node.node_id i)) node))
        ≤ dictLen (dictSet m (h (vpName node.node_id i)) node)
            + idxs.length := ih _
      _ ≤ (dictLen m + 1) + idxs.length :=
          Nat.add_le_add_right (dictLen_dictSet_le m _ node) _
      _ = dictLen m + (idxs.length + 1) := by omega

theorem addVirtual_mem_mono (h : String → Nat) (node : CacheNode)
    (idxs : List Nat) :
    ∀ (m : Dict Nat CacheNode) (k : Nat), dictMem m k = true →
      dictMem (idxs.foldl
          (fun m2 i => dictSet m2 (h (vpName node.node_id i)) node) m) k
        = true := by
  induction idxs with
  | nil => intro m k hk; simpa using hk
  | cons i idxs ih =>
    intro m k hk
    simp only [List.foldl_cons]
    apply ih
    rw [dictMem_dictSet]
    simp [hk]

theorem addVirtual_mem_new (h : String → Nat) (node : CacheNode)
    (idxs : List Nat) :
    ∀ (m : Dict Nat CacheNode), ∀ i ∈ idxs,
      dictMem (idxs.foldl
          (fun m2 i => dictSet m2 (h (vpName node.node_id i)) node) m)
        (h (vpName node.node_id i)) = true := by
  induction idxs with
  | nil => intro m i hi; simp at hi
  | cons j idxs ih =>
    intro m i hi
    simp only [List.foldl_cons]
    rcases List.mem_cons.mp hi with h1 | h1
    · subst h1
      apply addVirtual_mem_mono
      rw [dictMem_dictSet]
      simp
    · exact ih _ i h1

theorem createNodeMapAux_len (h : String → Nat) (nodes : List CacheNode) :
    ∀ m : Dict Nat CacheNode,
      dictLen (nodes.foldl
          (fun m node => (List.range 3).foldl
            (fun m2 i => dictSet m2 (h (vpName node.node_id i)) node) m) m)
        ≤ dictLen m + 3 * nodes.length := by
  induction nodes with
  | nil => intro m; simp
  | cons node nodes ih =>
    intro m
    simp only [List.foldl_cons, List.length_cons]
    calc dictLen (nodes.foldl _ ((List.range 3).foldl
            (fun m2 i => dictSet m2 (h (vpName node.node_id i)) node) m))
        ≤ dictLen ((List.range 3).foldl
            (fun m2 i => dictSet m2 (h (vpName node.node_id i)) node) m)
            + 3 * nodes.length := ih _
      _ ≤ (dictLen m + 3) + 3 * nodes.length := by
          have := addVirtual_len h node (List.range 3) m
          simp only [List.length_range] at this
          omega
      _ = dictLen m + 3 * (nodes.length + 1) := by ring

theorem createNodeMapAux_mem_mono (h : String → Nat)
    (nodes : List CacheNode) :
    ∀ (m : Dict Nat CacheNode) (k : Nat), dictMem m k = true →
      dictMem (nodes.foldl
          (fun m node => (List.range 3).foldl
            (fun m2 i => dictSet m2 (h (vpName node.node_id i)) node) m) m)
        k = true := by
  induction nodes with
  | nil => intro m k hk; simpa using hk
  | cons node nodes ih =>
    intro m k hk
    simp only [List.foldl_cons]
    exact ih _ k (addVirtual_mem_mono h node (List.range 3) m k hk)

theorem createNodeMapAux_mem_new (h : String → Nat)
    (nodes : List CacheNode) :
    ∀ m : Dict Nat CacheNode, ∀ node ∈ nodes, ∀ i, i < 3 →
      dictMem (nodes.foldl
          (fun m node => (List.range 3).foldl
            (fun m2 i => dictSet m2 (h (vpName node.node_id i)) node) m) m)
        (h (vpName node.node_id i)) = true := by
  induction nodes with
  | nil => intro m node hnode; simp at hnode
  | cons node2 nodes ih =>
    intro m node hnode i hi
    simp only [List.foldl_cons]
    rcases List.mem_cons.mp hnode with h1 | h1
    · subst h1
      apply createNodeMapAux_mem_mono
      exact addVirtual_mem_new h node (List.range 3) m i
        (List.mem_range.mpr hi)
    · exact ih _ node h1 i hi

/-- C8 amended: every virtual-point hash does appear as a ring key, but a
hash collision makes the later assignment overwrite the earlier entry (the
ring is a Python dict keyed by hash), so the ring holds at most `S × 3`
entries rather than always exactly `S × 3`. -/
theorem C8_ring_keeps_last_amended (h : String → Nat)
    (nodes : List CacheNode) :
    dictLen (createNodeMap h nodes) ≤ 3 * nodes.length ∧
    ∀ node ∈ nodes, ∀ i, i < 3 →
      dictMem (createNodeMap h nodes) (h (vpName node.node_id i)) = true := by
  constructor
  · have := createNodeMapAux_len h nodes []
    simpa [createNodeMap, dictLen] using this
  · intro node hnode i hi
    unfold createNodeMap
    exact createNodeMapAux_mem_new h nodes [] node hnode i hi

/-- C8 counterexample: two shard objects constructed with the same shard
id produce pairwise-identical virtual-point strings, hence identical
SHA-256 hash values; building the ring from these `S = 2` shards with
`V = 3` virtual points each yields a ring of 3 entries, not `2 × 3 = 6`,
and the colliding position holds only the later shard — the earlier
entry was overwritten, not kept. -/
theorem C8_ring_collision_counterexample :
    dictLen (createNodeMap hEx [nodeA1, nodeA2]) = 3 ∧
    (3 : Nat) ≠ 2 * 3 ∧
    dictGet (createNodeMap hEx [nodeA1, nodeA2]) 10 = some nodeA2 ∧
    nodeA1 ≠ nodeA2 := by decide

/-- Witness for the amended C8 on the two-shard colliding ring. -/
theorem C8_ring_keeps_last_amended_witness :
    dictLen (createNodeMap hEx [nodeA1, nodeA2]) ≤ 3 * 2 ∧
    dictMem (createNodeMap hEx [nodeA1, nodeA2])
      (hEx (vpName nodeA1.node_id 0)) = true :=
  ⟨(C8_ring_keeps_last_amended hEx [nodeA1, nodeA2]).1,
   (C8_ring_keeps_last_amended hEx [nodeA1, nodeA2]).2 nodeA1
     (by decide) 0 (by decide)⟩

/-! ## No fail-fast validation (claim C9) -/

/-- C9 evidence: both constructions run no validation and return normally
— `DistributedCache([])` builds an empty ring and `CacheNode` accepts
`max_size = 0` — while the corresponding failures surface only inside
later request-path operations: `_get_node` on the empty ring hits
`sorted_keys[0]` (`IndexError`, modelled `none`) during the first
`get/set/invalidate`, and the first `set` on the zero-capacity LRU shard
raises inside `_evict` (`min()` of an empty dict, modelled `none`). -/
theorem C9_validation_deferred_to_request_path :
    DistributedCache.init hEx [] = ⟨[], []⟩ ∧
    get_node hEx [] "k" = none ∧
    CacheNode.init "n" "LRU" 0 = ⟨"n", 0, "LRU", [], [], [], []⟩ ∧
    (CacheNode.init "n" "LRU" 0).set "k" "v" none 0 = none :=
  ⟨rfl, rfl, rfl, by decide⟩

/-! ## The ttl argument on non-TTL shards (claim C10) -/

theorem setStore_ttlArg_irrelevant (n : CacheNode)
    (hp : ¬ n.eviction_policy = "TTL") (k v : String) (t : Option Nat)
    (now : Nat) : n.setStore k v t now = n.setStore k v none now := by
  unfold CacheNode.setStore
  by_cases h1 : n.eviction_policy = "LRU" <;>
    by_cases h2 : n.eviction_policy = "LFU" <;>
      cases t <;> simp [h1, h2, hp]

theorem setStore_ttl_of_ne (n : CacheNode)
    (hp : ¬ n.eviction_policy = "TTL") (k v : String) (t : Option Nat)
    (now : Nat) : (n.setStore k v t now).ttl = n.ttl := by
  unfold CacheNode.setStore
  by_cases h1 : n.eviction_policy = "LRU" <;>
    by_cases h2 : n.eviction_policy = "LFU" <;>
      cases t <;> simp [h1, h2, hp]

theorem fold_invalidate_policy (ks : List String) :
    ∀ n : CacheNode,
      ((ks.foldl (fun m k => m.invalidate k) n)).eviction_policy
        = n.eviction_policy := by
  induction ks with
  | nil => intro n; rfl
  | cons k0 ks ih =>
    intro n
    simp only [List.foldl_cons]
    rw [ih (n.invalidate k0), invalidate_eviction_policy]

theorem fold_invalidate_ttl_empty (ks : List String) :
    ∀ n : CacheNode, n.ttl = [] →
      ((ks.foldl (fun m k => m.invalidate k) n)).ttl = [] := by
  induction ks with
  | nil => intro n h; simpa using h
  | cons k0 ks ih =>
    intro n h
    simp only [List.foldl_cons]
    exact ih (n.invalidate k0) (invalidate_ttl_empty n k0 h)

theorem evict_eviction_policy (n m : CacheNode) (now : Nat)
    (h : n.evict now = some m) : m.eviction_policy = n.eviction_policy := by
  unfold CacheNode.evict at h
  by_cases h1 : n.eviction_policy = "LRU"
  · rw [if_pos h1] at h
    cases hm : pyMin n.access_times with
    | none => rw [hm] at h; cases h
    | some p =>
      rw [hm] at h
      injection h with h
      rw [← h]
      exact invalidate_eviction_policy n p.1
  · rw [if_neg h1] at h
    by_cases h2 : n.eviction_policy = "LFU"
    · rw [if_pos h2] at h
      cases hm : pyMin n.access_counts with
      | none => rw [hm] at h; cases h
      | some p =>
        rw [hm] at h
        injection h with h
        rw [← h]
        exact invalidate_eviction_policy n p.1
    · rw [if_neg h2] at h
      by_cases h3 : n.eviction_policy = "TTL"
      · rw [if_pos h3] at h
        injection h with h
        rw [← h]
        exact fold_invalidate_policy _ n
      · rw [if_neg h3] at h
        injection h with h
        rw [← h]

theorem evict_ttl_empty (n m : CacheNode) (now : Nat) (httl : n.ttl = [])
    (h : n.evict now = some m) : m.ttl = [] := by
  unfold CacheNode.evict at h
  by_cases h1 : n.eviction_policy = "LRU"
  · rw [if_pos h1] at h
    cases hm : pyMin n.access_times with
    | none => rw [hm] at h; cases h
    | some p =>
      rw [hm] at h
      injection h with h
      rw [← h]
      exact invalidate_ttl_empty n p.1 httl
  · rw [if_neg h1] at h
    by_cases h2 : n.eviction_policy = "LFU"
    · rw [if_pos h2] at h
      cases hm : pyMin n.access_counts with
      | none => rw [hm] at h; cases h
      | some p =>
        rw [hm] at h
        injection h with h
        rw [← h]
        exact invalidate_ttl_empty n p.1 httl
    · rw [if_neg h2] at h
      by_cases h3 : n.eviction_policy = "TTL"
      · rw [if_pos h3] at h
        injection h with h
        rw [← h]
        exact fold_invalidate_ttl_empty _ n httl
      · rw [if_neg h3] at h
        injection h with h
        rw [← h]
        exact httl

/-- C10: on an LRU or LFU shard (whose `ttl` dict is empty, as it is in
every reachable state of such a shard), `set(key, value, ttl)` is the same
state transition as `set(key, value)`: the ttl argument is read only under
the TTL policy, no expiry is recorded, the `ttl` dict stays empty, and a
later `get(key)` at any time returns the stored value. -/
theorem C10_ttl_arg_ignored_on_lru_lfu (n : CacheNode) (k v : String)
    (t : Nat) (now : Nat)
    (hp : n.eviction_policy = "LRU" ∨ n.eviction_policy = "LFU")
    (httl : n.ttl = []) :
    n.set k v (some t) now = n.set k v none now ∧
    (∀ n2, n.set k v (some t) now = some n2 →
      n2.ttl = [] ∧ ∀ t2, ∃ n3, n2.get k t2 = some (some v, n3)) := by
  have hpne : ¬ n.eviction_policy = "TTL" := by
    rcases hp with hp | hp <;> rw [hp] <;> decide
  constructor
  · unfold CacheNode.set
    by_cases hcap : (dictLen n.cache : Int) ≥ n.max_size
    · rw [if_pos hcap, if_pos hcap]
      cases hev : n.evict now with
      | none => rfl
      | some m =>
        have hmp : ¬ m.eviction_policy = "TTL" := by
          rw [evict_eviction_policy n m now hev]
          exact hpne
        show some (m.setStore k v (some t) now)
          = some (m.setStore k v none now)
        rw [setStore_ttlArg_irrelevant m hmp]
    · rw [if_neg hcap, if_neg hcap]
      rw [setStore_ttlArg_irrelevant n hpne]
  · intro n2 hset
    unfold CacheNode.set at hset
    by_cases hcap : (dictLen n.cache : Int) ≥ n.max_size
    · rw [if_pos hcap] at hset
      cases hev : n.evict now with
      | none => rw [hev] at hset; cases hset
      | some m =>
        rw [hev] at hset
        injection hset with hset
        replace hset : m.setStore k v (some t) now = n2 := hset
        have hmp : m.eviction_policy = n.eviction_policy :=
          evict_eviction_policy n m now hev
        have hmttl : m.ttl = [] := evict_ttl_empty n m now httl hev
        have hmpne : ¬ m.eviction_policy = "TTL" := by rw [hmp]; exact hpne
        constructor
        · rw [← hset, setStore_ttl_of_ne m hmpne]
          exact hmttl
        · intro t2
          have hcache : n2.cache = dictSet m.cache k v := by
            rw [← hset, setStore_cache]
          have hv2 : dictGet n2.cache k = some v := by
            rw [hcache]
            exact dictGet_dictSet_self m.cache k v
          rcases hp with hp | hp
          · have hmp2 : m.eviction_policy = "LRU" := by rw [hmp, hp]
            have hn2p : n2.eviction_policy = "LRU" := by
              rw [← hset, setStore_eviction_policy]
              exact hmp2
            exact ⟨_, get_lru_mem n2 hn2p k v t2 hv2⟩
          · have hmp2 : m.eviction_policy = "LFU" := by rw [hmp, hp]
            have hn2p : n2.eviction_policy = "LFU" := by
              rw [← hset, setStore_eviction_policy]
              exact hmp2
            have hc : dictGet n2.access_counts k = some 1 := by
              rw [← hset, setStore_lfu m hmp2]
              exact dictGet_dictSet_self m.access_counts k 1
            exact ⟨_, get_lfu_mem n2 hn2p k v t2 1 hv2 hc⟩
    · rw [if_neg hcap] at hset
      injection hset with hset
      constructor
      · rw [← hset, setStore_ttl_of_ne n hpne]
        exact httl
      · intro t2
        have hv2 : dictGet n2.cache k = some v := by
          rw [← hset, setStore_cache]
          exact dictGet_dictSet_self n.cache k v
        rcases hp with hp | hp
        · have hn2p : n2.eviction_policy = "LRU" := by
            rw [← hset, setStore_eviction_policy]
            exact hp
          exact ⟨_, get_lru_mem n2 hn2p k v t2 hv2⟩
        · have hn2p : n2.eviction_policy = "LFU" := by
            rw [← hset, setStore_eviction_policy]
            exact hp
          have hc : dictGet n2.access_counts k = some 1 := by
            rw [← hset, setStore_lfu n hp]
            exact dictGet_dictSet_self n.access_counts k 1
          exact ⟨_, get_lfu_mem n2 hn2p k v t2 1 hv2 hc⟩

/-- Witness for C10 on a fresh LRU shard with an explicit ttl argument. -/
theorem C10_ttl_arg_ignored_on_lru_lfu_witness :
    lruInit.set "A" "1" (some 9) 0 = lruInit.set "A" "1" none 0 ∧
    (∀ n2, lruInit.set "A" "1" (some 9) 0 = some n2 →
      n2.ttl = [] ∧ ∀ t2, ∃ n3, n2.get "A" t2 = some (some "1", n3)) :=
  C10_ttl_arg_ignored_on_lru_lfu lruInit "A" "1" 9 0 (Or.inl rfl) rfl
